import Mathlib

/-!
Verification of the browser-cache-store library (src/index.ts).

The library exposes one `CacheStore` contract implemented by two backends:

* `IndexedCacheStore` — IndexedDB-backed.  Each operation runs inside a single
  IndexedDB transaction over the one object store `'data'`; the engine executes
  overlapping read-write transactions serially, so every operation (including
  the read-compute-write body of `put`) is a single atomic step with respect to
  other operations on the same store.  We embed the table as an association
  list from string keys to values of an opaque type, and each operation as the
  corresponding atomic state transformer.  The one-time memoized database open
  of the constructor and the queueing of early operations behind it are
  embedded separately as a small event-trace transition system.

* `LocalStorageCacheStore` — localStorage-backed.  The whole store is one JSON
  blob under the store name; every operation synchronously reads the blob with
  `JSON.parse`, mutates the in-memory object, and rewrites the blob with
  `JSON.stringify`.  We embed the blob slot as `Option String` and implement
  executable models of `JSON.stringify` and `JSON.parse` (numbers are modeled
  as integers, which covers every value the claims mention).  The JavaScript
  value `undefined` is modeled explicitly (`JSValue.jundefined`) because the code
  stores it (`json.data[key] = undefined` in `remove`) and `JSON.stringify`
  drops object members whose value is `undefined`.
-/

set_option maxHeartbeats 1000000

/-- Errors a JavaScript runtime surfaces as promise rejections in this code:
`SyntaxError` from `JSON.parse`, `TypeError` from property access on
`undefined`/`null` or from assigning a property of a non-object, and arbitrary
errors thrown by a caller-supplied update function (tagged by a number). -/
inductive JSError : Type where
  | syntaxError : JSError
  | typeError : JSError
  | userError : Nat → JSError
deriving DecidableEq

mutual
/-- JavaScript values as stored and exchanged by the library: JSON values plus
the distinguished value `undefined` (`jundefined`).  Numbers are modeled as
integers; the claims only involve integer-valued data.  Arrays and objects use
the mutually inductive list types so that every function on them is
structurally recursive and kernel-reducible. -/
inductive JSValue : Type where
  | jundefined : JSValue
  | jnull : JSValue
  | jbool : Bool → JSValue
  | jnum : Int → JSValue
  | jstr : String → JSValue
  | jarr : JSList → JSValue
  | jobj : JSMems → JSValue

/-- A list of array elements of a `JSValue` array. -/
inductive JSList : Type where
  | lnil : JSList
  | lcons : JSValue → JSList → JSList

/-- The member list of a `JSValue` object: ordered key-value pairs, in property
insertion order as JavaScript objects keep them. -/
inductive JSMems : Type where
  | mnil : JSMems
  | mcons : String → JSValue → JSMems → JSMems
end

open JSValue JSList JSMems

/-- Reads the member named `key`, scanning in property order. -/
def getMem : JSMems → String → Option JSValue
  | .mnil, _ => none
  | .mcons k v tl, key => if k = key then some v else getMem tl key

/-- Property assignment `obj[key] = x` on a JavaScript object: overwrites the
existing property in place, or appends a new property at the end. -/
def assignMem : JSMems → String → JSValue → JSMems
  | .mnil, key, x => .mcons key x .mnil
  | .mcons k v tl, key, x =>
    if k = key then .mcons k x tl else .mcons k v (assignMem tl key x)

/-- Whether a member with the given key exists. -/
def containsKey : JSMems → String → Bool
  | .mnil, _ => false
  | .mcons k _ tl, key => (k = key) || containsKey tl key

/-- Whether the member keys are pairwise distinct (always true of a JavaScript
object, whose properties are unique by construction). -/
def keysNodup : JSMems → Bool
  | .mnil => true
  | .mcons k _ tl => (!containsKey tl k) && keysNodup tl

/-- Property read `v[key]`: on an object it is the member value (or `undefined`
when absent); on `null` or `undefined` it throws a `TypeError`; on the other
primitives it is `undefined`. -/
def jsGet (v : JSValue) (key : String) : Except JSError JSValue :=
  match v with
  | .jobj ms => .ok ((getMem ms key).getD .jundefined)
  | .jnull => .error .typeError
  | .jundefined => .error .typeError
  | _ => .ok .jundefined

/-- Property write `v[key] = x`: allowed on objects, a `TypeError` otherwise
(the module code runs in strict mode). -/
def jsSet (v : JSValue) (key : String) (x : JSValue) : Except JSError JSValue :=
  match v with
  | .jobj ms => .ok (.jobj (assignMem ms key x))
  | _ => .error .typeError

/-- Decimal digits of a natural number, most significant first; fuel-recursive
so that it is structurally recursive and reduces in the kernel. -/
def printNatAux : Nat → Nat → List Char
  | 0, _ => []
  | fuel + 1, n =>
    if n < 10 then [Char.ofNat (48 + n)]
    else printNatAux fuel (n / 10) ++ [Char.ofNat (48 + n % 10)]

/-- Decimal digits of a natural number, most significant first. -/
def printNat (n : Nat) : List Char := printNatAux (n + 1) n

/-- Decimal rendering of an integer, as `JSON.stringify` renders a number. -/
def printInt : Int → List Char
  | .ofNat m => printNat m
  | .negSucc m => '-' :: printNat (m + 1)

/-- One hexadecimal digit character for a value below 16. -/
def hexDigit (n : Nat) : Char :=
  if n < 10 then Char.ofNat (48 + n) else Char.ofNat (87 + n)

/-- The escape sequence `JSON.stringify` emits for one character of a string:
quote and backslash are backslash-escaped, control characters use their short
or `\u00XX` forms, every other character is emitted as itself. -/
def escChar (c : Char) : List Char :=
  if c = '"' then ['\\', '"']
  else if c = '\\' then ['\\', '\\']
  else if c = '\n' then ['\\', 'n']
  else if c = '\t' then ['\\', 't']
  else if c = '\r' then ['\\', 'r']
  else if c.toNat < 32 then
    ['\\', 'u', '0', '0', hexDigit (c.toNat / 16), hexDigit (c.toNat % 16)]
  else [c]

/-- The characters of the JSON rendering of a string body (without the
surrounding quotes). -/
def escString (s : String) : List Char :=
  s.data.foldr (fun c acc => escChar c ++ acc) []

mutual
/-- The characters `JSON.stringify` produces for a value.  `undefined` is only
reachable here inside arrays (rendered `null`, as `JSON.stringify` does) or at
the top level (never reached by the library, which only stringifies the
wrapper object). -/
def strVal : JSValue → List Char
  | .jundefined => ['n', 'u', 'l', 'l']
  | .jnull => ['n', 'u', 'l', 'l']
  | .jbool true => ['t', 'r', 'u', 'e']
  | .jbool false => ['f', 'a', 'l', 's', 'e']
  | .jnum i => printInt i
  | .jstr s => '"' :: (escString s ++ ['"'])
  | .jarr xs => '[' :: (strList xs ++ [']'])
  | .jobj ms => '{' :: (strMems ms true ++ ['}'])

/-- Array elements, comma separated. -/
def strList : JSList → List Char
  | .lnil => []
  | .lcons v .lnil => strVal v
  | .lcons v (.lcons w tl) => strVal v ++ ',' :: strList (.lcons w tl)

/-- Object members, comma separated; members whose value is `undefined` are
skipped entirely, exactly as `JSON.stringify` skips them.  The flag records
whether no member has been emitted yet (so no comma is needed). -/
def strMems : JSMems → Bool → List Char
  | .mnil, _ => []
  | .mcons k v tl, first =>
    match v with
    | .jundefined => strMems tl first
    | _ =>
      (if first then [] else [',']) ++
        '"' :: (escString k ++ '"' :: ':' :: (strVal v ++ strMems tl false))
end

/-- The model of `JSON.stringify` restricted to the values the library stores. -/
def stringifyVal (v : JSValue) : String := String.mk (strVal v)

mutual
/-- The value `JSON.parse` would return for a stored value: object members
whose value is `undefined` disappear, `undefined` array elements read back as
`null`, and everything else is unchanged.  Used to state serialization
round-trip hypotheses. -/
def canonVal : JSValue → JSValue
  | .jundefined => .jnull
  | .jnull => .jnull
  | .jbool b => .jbool b
  | .jnum i => .jnum i
  | .jstr s => .jstr s
  | .jarr xs => .jarr (canonList xs)
  | .jobj ms => .jobj (canonMems ms)

/-- Canonicalization of array elements. -/
def canonList : JSList → JSList
  | .lnil => .lnil
  | .lcons v tl => .lcons (canonVal v) (canonList tl)

/-- Canonicalization of object members: members valued `undefined` are dropped. -/
def canonMems : JSMems → JSMems
  | .mnil => .mnil
  | .mcons k v tl =>
    match v with
    | .jundefined => canonMems tl
    | _ => .mcons k (canonVal v) (canonMems tl)
end

mutual
/-- Whether a value contains no `undefined` anywhere (parsed JSON never does). -/
def undefFreeVal : JSValue → Bool
  | .jundefined => false
  | .jnull => true
  | .jbool _ => true
  | .jnum _ => true
  | .jstr _ => true
  | .jarr xs => undefFreeList xs
  | .jobj ms => undefFreeMems ms

/-- Whether array elements are all `undefined`-free. -/
def undefFreeList : JSList → Bool
  | .lnil => true
  | .lcons v tl => undefFreeVal v && undefFreeList tl

/-- Whether member values are all `undefined`-free. -/
def undefFreeMems : JSMems → Bool
  | .mnil => true
  | .mcons _ v tl => undefFreeVal v && undefFreeMems tl
end

/-- Whitespace as the JSON grammar allows between tokens. -/
def isWsChar (c : Char) : Bool :=
  c = ' ' || c = '\n' || c = '\t' || c = '\r'

/-- Skips leading JSON whitespace. -/
def skipWs : List Char → List Char
  | [] => []
  | c :: r => if isWsChar c then skipWs r else c :: r

/-- Whether a character is a decimal digit. -/
def isDigitChar (c : Char) : Bool :=
  48 ≤ c.toNat && c.toNat ≤ 57

/-- Splits off the longest leading run of decimal digits. -/
def spanDigits : List Char → List Char × List Char
  | [] => ([], [])
  | c :: r =>
    if isDigitChar c then
      let p := spanDigits r
      (c :: p.1, p.2)
    else ([], c :: r)

/-- The natural number denoted by a list of decimal digit characters. -/
def digitsVal (ds : List Char) : Nat :=
  ds.foldl (fun a c => 10 * a + (c.toNat - 48)) 0

/-- Parses a JSON number (an optional minus sign followed by digits; the
library only ever stores integer numbers). -/
def parseNum : List Char → Option (JSValue × List Char)
  | [] => none
  | c :: r =>
    if c = '-' then
      match spanDigits r with
      | ([], _) => none
      | (ds, rest) => some (.jnum (-(digitsVal ds : Int)), rest)
    else
      match spanDigits (c :: r) with
      | ([], _) => none
      | (ds, rest) => some (.jnum (digitsVal ds), rest)

/-- The numeric value of a hexadecimal digit character, if it is one. -/
def hexVal (c : Char) : Option Nat :=
  if 48 ≤ c.toNat ∧ c.toNat ≤ 57 then some (c.toNat - 48)
  else if 97 ≤ c.toNat ∧ c.toNat ≤ 102 then some (c.toNat - 87)
  else if 65 ≤ c.toNat ∧ c.toNat ≤ 70 then some (c.toNat - 55)
  else none

/-- Parses the body of a JSON string after the opening quote, handling the
escape sequences of the JSON grammar, up to and including the closing quote.
Returns the decoded characters and the remaining input. -/
def parseStrBody : List Char → Option (List Char × List Char)
  | [] => none
  | '"' :: r => some ([], r)
  | '\\' :: e :: r =>
    match e with
    | '"' => (parseStrBody r).map (fun p => ('"' :: p.1, p.2))
    | '\\' => (parseStrBody r).map (fun p => ('\\' :: p.1, p.2))
    | '/' => (parseStrBody r).map (fun p => ('/' :: p.1, p.2))
    | 'n' => (parseStrBody r).map (fun p => ('\n' :: p.1, p.2))
    | 't' => (parseStrBody r).map (fun p => ('\t' :: p.1, p.2))
    | 'r' => (parseStrBody r).map (fun p => ('\r' :: p.1, p.2))
    | 'b' => (parseStrBody r).map (fun p => (Char.ofNat 8 :: p.1, p.2))
    | 'f' => (parseStrBody r).map (fun p => (Char.ofNat 12 :: p.1, p.2))
    | 'u' =>
      match r with
      | a :: b :: c :: d :: r2 =>
        match hexVal a, hexVal b, hexVal c, hexVal d with
        | some ha, some hb, some hc, some hd =>
          (parseStrBody r2).map
            (fun p => (Char.ofNat (((ha * 16 + hb) * 16 + hc) * 16 + hd) :: p.1, p.2))
        | _, _, _, _ => none
      | _ => none
    | _ => none
  | c :: r => (parseStrBody r).map (fun p => (c :: p.1, p.2))

/-- Consumes an expected literal run of characters. -/
def expectChars : List Char → List Char → Option (List Char)
  | [], cs => some cs
  | e :: es, c :: cs => if c = e then expectChars es cs else none
  | _ :: _, [] => none

/-- Builds a JavaScript object from parsed members in source order by repeated
property assignment, so a duplicated key keeps the last value, as `JSON.parse`
does. -/
def buildMems (l : List (String × JSValue)) : JSMems :=
  l.foldl (fun ms p => assignMem ms p.1 p.2) .mnil

mutual
/-- Recursive-descent model of `JSON.parse` for one value.  The fuel argument
only bounds the nesting of recursive calls (it is instantiated with the input
length plus one, which always suffices since every recursive call consumes at
least one character); the function is structurally recursive on it so that it
reduces in the kernel. -/
def parseVal : Nat → List Char → Option (JSValue × List Char)
  | 0, _ => none
  | fuel + 1, cs =>
    match skipWs cs with
    | [] => none
    | c :: r =>
      if c = 'n' then
        match expectChars ['u', 'l', 'l'] r with
        | some rest => some (.jnull, rest)
        | none => none
      else if c = 't' then
        match expectChars ['r', 'u', 'e'] r with
        | some rest => some (.jbool true, rest)
        | none => none
      else if c = 'f' then
        match expectChars ['a', 'l', 's', 'e'] r with
        | some rest => some (.jbool false, rest)
        | none => none
      else if c = '"' then
        match parseStrBody r with
        | some (s, rest) => some (.jstr (String.mk s), rest)
        | none => none
      else if c = '[' then
        match skipWs r with
        | ']' :: rest => some (.jarr .lnil, rest)
        | r2 =>
          match parseArrItems fuel r2 with
          | some (xs, rest) => some (.jarr xs, rest)
          | none => none
      else if c = '{' then
        match skipWs r with
        | '}' :: rest => some (.jobj .mnil, rest)
        | r2 =>
          match parseObjItems fuel r2 with
          | some (raw, rest) => some (.jobj (buildMems raw), rest)
          | none => none
      else parseNum (c :: r)

/-- Parses the comma-separated elements of a non-empty array, up to and
including the closing bracket. -/
def parseArrItems : Nat → List Char → Option (JSList × List Char)
  | 0, _ => none
  | fuel + 1, cs =>
    match parseVal fuel cs with
    | none => none
    | some (v, r) =>
      match skipWs r with
      | ',' :: r2 =>
        match parseArrItems fuel r2 with
        | some (tl, rest) => some (.lcons v tl, rest)
        | none => none
      | ']' :: rest => some (.lcons v .lnil, rest)
      | _ => none

/-- Parses the comma-separated members of a non-empty object, up to and
including the closing brace, returning the raw key-value pairs in source
order. -/
def parseObjItems : Nat → List Char → Option (List (String × JSValue) × List Char)
  | 0, _ => none
  | fuel + 1, cs =>
    match skipWs cs with
    | '"' :: r =>
      (match parseStrBody r with
      | none => none
      | some (kcs, r1) =>
        match skipWs r1 with
        | ':' :: r2 =>
          (match parseVal fuel r2 with
          | none => none
          | some (v, r3) =>
            match skipWs r3 with
            | ',' :: r4 =>
              (match parseObjItems fuel r4 with
              | some (tl, rest) => some ((String.mk kcs, v) :: tl, rest)
              | none => none)
            | '}' :: rest => some ([(String.mk kcs, v)], rest)
            | _ => none)
        | _ => none)
    | _ => none
end

/-- The model of `JSON.parse`: parses one value and requires that only
whitespace follows it; `none` models the `SyntaxError` thrown on malformed
input. -/
def parseJSON (s : String) : Option JSValue :=
  match parseVal (s.data.length + 1) s.data with
  | some (v, rest) => if (skipWs rest).isEmpty then some v else none
  | none => none

/-- The `CacheUpdated<T>` record returned by `put`: the value before the
update (`none` models the `undefined` that `get.result` yields for a missing
key in the IndexedDB backend) and the value written. -/
structure CacheUpdated (α : Type) : Type where
  prev : Option α
  next : α
deriving DecidableEq

/-- The `CacheUpdated<T>` record of the localStorage backend: here the
previous value is a raw JavaScript value and a missing key surfaces as the
value `undefined` (`JSValue.jundefined`), exactly as `json.data[key]` reads it. -/
structure CacheUpdatedJS : Type where
  prev : JSValue
  next : JSValue

namespace IndexedCacheStore

/-- The contents of the single IndexedDB object store `'data'`: key-value
entries with unique keys, embedded as an association list over an opaque value
type.  Each public operation of `IndexedCacheStore` runs inside one IndexedDB
transaction on this store, and the engine serializes overlapping read-write
transactions, so each operation below is one atomic step. -/
abbrev Table (α : Type) : Type := List (String × α)

/-- Value of a key in the table: the `IDBObjectStore.get` request result,
`none` for a missing key (the `undefined` result). -/
def lookup {α : Type} (k : String) : Table α → Option α
  | [] => none
  | (k2, v) :: tl => if k2 = k then some v else lookup k tl

/-- The effect of `IDBObjectStore.put(value, key)`: overwrite the entry in
place or append it. -/
def assign {α : Type} : Table α → String → α → Table α
  | [], k, v => [(k, v)]
  | (k2, w) :: tl, k, v =>
    if k2 = k then (k2, v) :: tl else (k2, w) :: assign tl k v

/-- Model of `IndexedCacheStore.get`: one read-only transaction issuing a
single get request. -/
def get {α : Type} (k : String) (st : Table α) : Option α := lookup k st

/-- Model of `IndexedCacheStore.set`: one read-write transaction issuing a
single put request. -/
def set {α : Type} (k : String) (v : α) (st : Table α) : Table α := assign st k v

/-- Model of `IndexedCacheStore.put`: inside a single read-write transaction,
read the previous value, apply the caller-supplied update (whose exception is
caught and surfaced as a rejection, in which case no put request is ever
issued), then write the result and resolve with both values. -/
def put {α : Type} (k : String) (update : Option α → Except JSError α)
    (st : Table α) : Except JSError (CacheUpdated α) × Table α :=
  match update (lookup k st) with
  | .error e => (.error e, st)
  | .ok next => (.ok ⟨lookup k st, next⟩, assign st k next)

/-- Model of `IndexedCacheStore.remove`: one delete request; deleting a
missing key succeeds as a no-op. -/
def remove {α : Type} (k : String) (st : Table α) : Table α :=
  st.filter (fun p => !(p.1 == k))

/-- Model of `IndexedCacheStore.clear`: one clear request emptying the store. -/
def clear {α : Type} (_st : Table α) : Table α := []

/-- An event in the life of one `IndexedCacheStore` instance: an operation
being issued through the private `store` helper (operations are numbered so
they can be tracked), or the one-time database open request succeeding with a
handle. -/
inductive OpenEvent : Type where
  | issue : Nat → OpenEvent
  | openOk : Nat → OpenEvent
deriving DecidableEq

/-- The observable state of one instance with respect to its database handle:
the memoized `this.db`, the operations queued on the in-flight open promise
`this.dp`, the operations that have executed paired with the handle they used,
and how many engine open requests have been issued. -/
structure ConnState : Type where
  db : Option Nat
  waiting : List Nat
  executed : List (Nat × Nat)
  opens : Nat
deriving DecidableEq

/-- State right after the constructor: no handle yet, nothing queued, and
exactly one `window.indexedDB.open` request issued — the constructor is the
only place the code opens the database. -/
def initConn : ConnState := ⟨none, [], [], 1⟩

/-- One event step, following the private `store` helper: an operation issued
while `this.db` is set runs immediately against that handle; otherwise it
chains onto `this.dp`.  When the open succeeds, the handle is memoized into
`this.db` and every queued operation runs against it.  A resolved promise
never fires again, so a second open-success event is a no-op. -/
def stepConn (st : ConnState) : OpenEvent → ConnState
  | .issue op =>
    match st.db with
    | some h => { st with executed := st.executed ++ [(op, h)] }
    | none => { st with waiting := st.waiting ++ [op] }
  | .openOk h =>
    match st.db with
    | some _ => st
    | none =>
      { st with
          db := some h
          waiting := []
          executed := st.executed ++ st.waiting.map (fun op => (op, h)) }

/-- The instance state after a list of events, starting from construction. -/
def runConn (evts : List OpenEvent) : ConnState :=
  evts.foldl stepConn initConn

/-- The operations issued in a list of events, in order. -/
def issuedOps : List OpenEvent → List Nat
  | [] => []
  | .issue op :: tl => op :: issuedOps tl
  | .openOk _ :: tl => issuedOps tl

end IndexedCacheStore

namespace LocalStorageCacheStore

/-- The localStorage slot this store's name points at: `none` when no item is
stored, otherwise the stored string.  Every operation of the class touches
only this slot. -/
abbrev Slot : Type := Option String

/-- The empty wrapper object the code uses when nothing (or an empty string)
is stored. -/
def emptyJSON : JSValue := .jobj (.mcons "data" (.jobj .mnil) .mnil)

/-- Model of the private `getJSON`: read the slot; a missing item or an empty
string (both falsy) yield the fresh wrapper; otherwise the text goes through
`JSON.parse`, whose `SyntaxError` on malformed text propagates. -/
def getJSON (st : Slot) : Except JSError JSValue :=
  match st with
  | none => .ok emptyJSON
  | some text =>
    if text = "" then .ok emptyJSON
    else
      match parseJSON text with
      | some v => .ok v
      | none => .error .syntaxError

/-- Model of the private `putJSON`: store `JSON.stringify` of the wrapper. -/
def putJSON (json : JSValue) : Slot := some (stringifyVal json)

/-- Model of `LocalStorageCacheStore.get`: `this.getJSON().data[key]`, a pure
read (missing keys read as `undefined`). -/
def get (k : String) (st : Slot) : Except JSError JSValue := do
  let json ← getJSON st
  let dataV ← jsGet json "data"
  jsGet dataV k

/-- Model of `LocalStorageCacheStore.put`: read the wrapper, read the previous
value, apply the caller-supplied update (an exception aborts the operation
before anything is written), assign the result under the key, and rewrite the
whole blob.  The synchronous body has no suspension point, so the whole
function is one atomic step. -/
def put (k : String) (update : JSValue → Except JSError JSValue)
    (st : Slot) : Except JSError CacheUpdatedJS × Slot :=
  match getJSON st with
  | .error e => (.error e, st)
  | .ok json =>
    match jsGet json "data" with
    | .error e => (.error e, st)
    | .ok dataV =>
      match jsGet dataV k with
      | .error e => (.error e, st)
      | .ok prev =>
        match update prev with
        | .error e => (.error e, st)
        | .ok next =>
          match jsSet dataV k next with
          | .error e => (.error e, st)
          | .ok dataV2 =>
            match jsSet json "data" dataV2 with
            | .error e => (.error e, st)
            | .ok json2 => (.ok ⟨prev, next⟩, putJSON json2)

/-- Model of `LocalStorageCacheStore.set`: read the wrapper, assign the value
under the key, rewrite the blob. -/
def set (k : String) (v : JSValue) (st : Slot) : Except JSError Unit × Slot :=
  match getJSON st with
  | .error e => (.error e, st)
  | .ok json =>
    match jsGet json "data" with
    | .error e => (.error e, st)
    | .ok dataV =>
      match jsSet dataV k v with
      | .error e => (.error e, st)
      | .ok dataV2 =>
        match jsSet json "data" dataV2 with
        | .error e => (.error e, st)
        | .ok json2 => (.ok (), putJSON json2)

/-- Model of `LocalStorageCacheStore.remove`: assign `undefined` under the key
in the in-memory wrapper (`json.data[key] = undefined`) and rewrite the blob;
`JSON.stringify` then omits that member from the stored text. -/
def remove (k : String) (st : Slot) : Except JSError Unit × Slot :=
  set k .jundefined st

/-- Model of `LocalStorageCacheStore.clear`: `localStorage.removeItem(name)`,
which always succeeds and empties the slot. -/
def clear (_st : Slot) : Except JSError Unit × Slot := (.ok (), none)

end LocalStorageCacheStore

/-- The value a member reads back as after a stringify-parse round trip:
a member valued `undefined` was never emitted, every other member value comes
back canonicalized. -/
def canonRead : Option JSValue → Option JSValue
  | none => none
  | some .jundefined => none
  | some v => some (canonVal v)

/-- Whether a value reads back from the blob as itself: `undefined` does
(the member is dropped and the key reads as `undefined` again), and so does
any value containing no embedded `undefined`. -/
def storable : JSValue → Bool
  | .jundefined => true
  | v => undefFreeVal v


/-- Induction principle for member lists alone: the member-list functions here
recurse only on the member spine, so the two other motives of the mutual
recursor are trivial. -/
theorem JSMems.inductionOn {motive : JSMems → Prop}
    (ms : JSMems) (hnil : motive .mnil)
    (hcons : ∀ (k : String) (v : JSValue) (tl : JSMems),
      motive tl → motive (.mcons k v tl)) : motive ms :=
  JSMems.rec (motive_1 := fun _ => True) (motive_2 := fun _ => True)
    (motive_3 := motive)
    trivial trivial (fun _ => trivial) (fun _ => trivial) (fun _ => trivial)
    (fun _ _ => trivial) (fun _ _ => trivial)
    trivial (fun _ _ _ _ => trivial)
    hnil (fun k v tl _ h => hcons k v tl h) ms

theorem getMem_assignMem_self (ms : JSMems) (k : String) (x : JSValue) :
    getMem (assignMem ms k x) k = some x := by
  induction ms using JSMems.inductionOn with
  | hnil => simp [assignMem, getMem]
  | hcons k2 v tl ih =>
    by_cases h : k2 = k
    · simp [assignMem, h, getMem]
    · simp [assignMem, h, getMem, ih]

theorem getMem_assignMem_ne (ms : JSMems) (k j : String) (x : JSValue)
    (h : j ≠ k) : getMem (assignMem ms k x) j = getMem ms j := by
  induction ms using JSMems.inductionOn with
  | hnil => simp [assignMem, getMem, Ne.symm h]
  | hcons k2 v tl ih =>
    by_cases h2 : k2 = k
    · subst h2
      simp [assignMem, getMem, Ne.symm h]
    · by_cases h3 : k2 = j
      · subst h3
        simp [assignMem, h2, getMem]
      · simp [assignMem, h2, getMem, h3, ih]

theorem containsKey_eq_isSome_getMem (ms : JSMems) (j : String) :
    containsKey ms j = (getMem ms j).isSome := by
  induction ms using JSMems.inductionOn with
  | hnil => simp [containsKey, getMem]
  | hcons k v tl ih =>
    by_cases h : k = j
    · simp [containsKey, getMem, h]
    · simp [containsKey, getMem, h, ih]

theorem getMem_eq_none_of_not_containsKey (ms : JSMems) (j : String)
    (h : containsKey ms j = false) : getMem ms j = none := by
  rw [containsKey_eq_isSome_getMem] at h
  cases h2 : getMem ms j with
  | none => rfl
  | some v => rw [h2] at h; simp at h

theorem containsKey_assignMem (ms : JSMems) (k j : String) (x : JSValue) :
    containsKey (assignMem ms k x) j = (containsKey ms j || decide (k = j)) := by
  induction ms using JSMems.inductionOn with
  | hnil => simp [assignMem, containsKey, Bool.or_comm]
  | hcons k2 v tl ih =>
    by_cases h : k2 = k
    · subst h
      by_cases h2 : k2 = j <;> simp [assignMem, containsKey, h2]
    · by_cases h2 : k2 = j
      · subst h2
        simp [assignMem, h, containsKey]
      · simp [assignMem, containsKey, h, h2, ih]

theorem containsKey_assignMem_self (ms : JSMems) (k : String) (x : JSValue) :
    containsKey (assignMem ms k x) k = true := by
  simp [containsKey_assignMem]

theorem keysNodup_assignMem (ms : JSMems) (k : String) (x : JSValue)
    (h : keysNodup ms = true) : keysNodup (assignMem ms k x) = true := by
  induction ms using JSMems.inductionOn with
  | hnil => simp [assignMem, keysNodup, containsKey]
  | hcons k2 v tl ih =>
    simp only [keysNodup, Bool.and_eq_true, Bool.not_eq_true'] at h
    by_cases h2 : k2 = k
    · subst h2
      simp [assignMem, keysNodup, h.1, h.2]
    · simp only [assignMem, h2, if_false, keysNodup, Bool.and_eq_true,
        Bool.not_eq_true']
      refine ⟨?_, ih h.2⟩
      rw [containsKey_assignMem]
      simp [h.1, Ne.symm h2]

theorem containsKey_canonMems_false (ms : JSMems) (j : String)
    (h : containsKey ms j = false) : containsKey (canonMems ms) j = false := by
  induction ms using JSMems.inductionOn with
  | hnil => simp [canonMems, containsKey]
  | hcons k v tl ih =>
    simp only [containsKey, Bool.or_eq_false_iff, decide_eq_false_iff_not] at h
    cases v <;>
      simp [canonMems, containsKey, h.1, ih h.2]

theorem getMem_canonMems (ms : JSMems) (j : String)
    (h : keysNodup ms = true) :
    getMem (canonMems ms) j = canonRead (getMem ms j) := by
  induction ms using JSMems.inductionOn with
  | hnil => simp [canonMems, getMem, canonRead]
  | hcons k v tl ih =>
    simp only [keysNodup, Bool.and_eq_true, Bool.not_eq_true'] at h
    by_cases h2 : k = j
    · subst h2
      have hnone : getMem (canonMems tl) k = none :=
        getMem_eq_none_of_not_containsKey _ _ (containsKey_canonMems_false _ _ h.1)
      cases v <;> simp [canonMems, getMem, canonRead, hnone]
    · cases v <;> simp [canonMems, getMem, h2, ih h.2, canonRead]

theorem canonVal_eq_self (v : JSValue) (h : undefFreeVal v = true) :
    canonVal v = v := by
  induction v using JSValue.rec
    (motive_2 := fun xs => undefFreeList xs = true → canonList xs = xs)
    (motive_3 := fun ms => undefFreeMems ms = true → canonMems ms = ms) with
  | jundefined => simp [undefFreeVal] at h
  | jnull => rfl
  | jbool b => rfl
  | jnum i => rfl
  | jstr s => rfl
  | jarr xs ih => rw [canonVal, ih (by simpa [undefFreeVal] using h)]
  | jobj ms ih => rw [canonVal, ih (by simpa [undefFreeVal] using h)]
  | lnil => rfl
  | lcons v tl ihv ihtl =>
    rename_i h2
    simp only [undefFreeList, Bool.and_eq_true] at h2
    rw [canonList, ihv h2.1, ihtl h2.2]
  | mnil => rfl
  | mcons k v tl ihv ihtl =>
    rename_i h2
    simp only [undefFreeMems, Bool.and_eq_true] at h2
    have hv := ihv h2.1
    have htl := ihtl h2.2
    cases v with
    | jundefined => simp [undefFreeVal] at h2
    | jnull => simp [canonMems, canonVal, htl]
    | jbool b => simp [canonMems, canonVal, htl]
    | jnum i => simp [canonMems, canonVal, htl]
    | jstr s => simp [canonMems, canonVal, htl]
    | jarr xs =>
      simp only [canonMems, htl]
      rw [show canonVal (.jarr xs) = .jarr xs from hv]
    | jobj ms2 =>
      simp only [canonMems, htl]
      rw [show canonVal (.jobj ms2) = .jobj ms2 from hv]

theorem canonRead_getD_of_storable (v : JSValue) (h : storable v = true) :
    (canonRead (some v)).getD .jundefined = v := by
  cases v with
  | jundefined => rfl
  | jnull => rfl
  | jbool b => rfl
  | jnum i => rfl
  | jstr s => rfl
  | jarr xs =>
    simp only [canonRead, Option.getD_some]
    exact canonVal_eq_self _ (by simpa [storable] using h)
  | jobj ms =>
    simp only [canonRead, Option.getD_some]
    exact canonVal_eq_self _ (by simpa [storable] using h)

theorem getMem_undefFree (ms : JSMems) (j : String) (v : JSValue)
    (h : undefFreeMems ms = true) (h2 : getMem ms j = some v) :
    undefFreeVal v = true := by
  induction ms using JSMems.inductionOn with
  | hnil => simp [getMem] at h2
  | hcons k w tl ih =>
    simp only [undefFreeMems, Bool.and_eq_true] at h
    by_cases h3 : k = j
    · subst h3
      rw [getMem, if_pos rfl] at h2
      have h4 : w = v := by injection h2
      subst h4
      exact h.1
    · rw [getMem, if_neg h3] at h2
      exact ih h.2 h2

namespace IndexedCacheStore

theorem lookup_assign_self {α : Type} (st : Table α) (k : String) (v : α) :
    lookup k (assign st k v) = some v := by
  induction st with
  | nil => simp [assign, lookup]
  | cons p tl ih =>
    obtain ⟨k2, w⟩ := p
    by_cases h : k2 = k
    · simp [assign, h, lookup]
    · simp [assign, h, lookup, ih]

theorem lookup_assign_ne {α : Type} (st : Table α) (k j : String) (v : α)
    (h : j ≠ k) : lookup j (assign st k v) = lookup j st := by
  induction st with
  | nil => simp [assign, lookup, Ne.symm h]
  | cons p tl ih =>
    obtain ⟨k2, w⟩ := p
    by_cases h2 : k2 = k
    · subst h2
      simp [assign, lookup, Ne.symm h]
    · by_cases h3 : k2 = j
      · subst h3
        simp [assign, lookup, h2]
      · simp [assign, h2, lookup, h3, ih]

theorem lookup_remove_self {α : Type} (st : Table α) (k : String) :
    lookup k (remove k st) = none := by
  induction st with
  | nil => simp [remove, lookup]
  | cons p tl ih =>
    obtain ⟨k2, w⟩ := p
    by_cases h : k2 = k
    · simpa [remove, h, lookup] using ih
    · simpa [remove, h, lookup] using ih

theorem lookup_remove_ne {α : Type} (st : Table α) (k j : String)
    (h : j ≠ k) : lookup j (remove k st) = lookup j st := by
  induction st with
  | nil => simp [remove, lookup]
  | cons p tl ih =>
    obtain ⟨k2, w⟩ := p
    by_cases h2 : k2 = k
    · subst h2
      simp only [remove, List.filter_cons] at ih ⊢
      simp [lookup, Ne.symm h, ih, remove]
    · by_cases h3 : k2 = j
      · subst h3
        simp only [remove, List.filter_cons] at ih ⊢
        simp [lookup, h]
      · simp only [remove, List.filter_cons] at ih ⊢
        simp [lookup, h2, h3, ih, remove]

end IndexedCacheStore

theorem printNatAux_irrel (n : Nat) : ∀ fuel fuel2 : Nat, n < fuel → n < fuel2 →
    printNatAux fuel n = printNatAux fuel2 n := by
  induction n using Nat.strong_induction_on with
  | _ n ih =>
    intro fuel fuel2 h h2
    match fuel, fuel2 with
    | f + 1, f2 + 1 =>
      by_cases h3 : n < 10
      · simp [printNatAux, h3]
      · have hd : n / 10 < n := Nat.div_lt_self (by omega) (by omega)
        simp only [printNatAux, h3, if_false]
        rw [ih (n / 10) hd f f2 (by omega) (by omega)]

theorem printNat_lt_ten (n : Nat) (h : n < 10) :
    printNat n = [Char.ofNat (48 + n)] := by
  simp [printNat, printNatAux, h]

theorem printNat_ge_ten (n : Nat) (h : 10 ≤ n) :
    printNat n = printNat (n / 10) ++ [Char.ofNat (48 + n % 10)] := by
  have hd : n / 10 < n := Nat.div_lt_self (by omega) (by omega)
  rw [printNat, printNatAux]
  simp only [show ¬n < 10 by omega, if_false]
  rw [printNatAux_irrel (n / 10) n (n / 10 + 1) (by omega) (by omega)]
  rfl

theorem isDigitChar_ofNat_digit (m : Nat) (h : m < 10) :
    isDigitChar (Char.ofNat (48 + m)) = true := by
  interval_cases m <;> decide

theorem toNat_ofNat_digit (m : Nat) (h : m < 10) :
    (Char.ofNat (48 + m)).toNat = 48 + m := by
  interval_cases m <;> decide

theorem printNat_all_digits (n : Nat) :
    ∀ c ∈ printNat n, isDigitChar c = true := by
  induction n using Nat.strong_induction_on with
  | _ n ih =>
    by_cases h : n < 10
    · rw [printNat_lt_ten n h]
      intro c hc
      simp only [List.mem_singleton] at hc
      subst hc
      exact isDigitChar_ofNat_digit n h
    · rw [printNat_ge_ten n (by omega)]
      intro c hc
      rcases List.mem_append.mp hc with h2 | h2
      · exact ih (n / 10) (Nat.div_lt_self (by omega) (by omega)) c h2
      · simp only [List.mem_singleton] at h2
        subst h2
        exact isDigitChar_ofNat_digit _ (Nat.mod_lt _ (by omega))

theorem printNat_ne_nil (n : Nat) : printNat n ≠ [] := by
  by_cases h : n < 10
  · rw [printNat_lt_ten n h]; simp
  · rw [printNat_ge_ten n (by omega)]; simp

theorem digitsVal_append_singleton (ds : List Char) (c : Char) :
    digitsVal (ds ++ [c]) = 10 * digitsVal ds + (c.toNat - 48) := by
  simp [digitsVal, List.foldl_append]

theorem digitsVal_printNat (n : Nat) : digitsVal (printNat n) = n := by
  induction n using Nat.strong_induction_on with
  | _ n ih =>
    by_cases h : n < 10
    · rw [printNat_lt_ten n h]
      simp [digitsVal, toNat_ofNat_digit n h]
    · rw [printNat_ge_ten n (by omega), digitsVal_append_singleton,
        ih (n / 10) (Nat.div_lt_self (by omega) (by omega)),
        toNat_ofNat_digit _ (Nat.mod_lt _ (by omega))]
      omega

/-- Whether the input does not begin with a decimal digit (so that a digit run
ends exactly there). -/
def headNotDigit : List Char → Bool
  | [] => true
  | c :: _ => !isDigitChar c

theorem spanDigits_append (ds : List Char) (rest : List Char)
    (h : ∀ c ∈ ds, isDigitChar c = true) (h2 : headNotDigit rest = true) :
    spanDigits (ds ++ rest) = (ds, rest) := by
  induction ds with
  | nil =>
    cases rest with
    | nil => rfl
    | cons c r =>
      simp only [headNotDigit, Bool.not_eq_true'] at h2
      simp [spanDigits, h2]
  | cons c ds2 ih =>
    have hc : isDigitChar c = true := h c (by simp)
    simp only [List.cons_append, spanDigits, hc, if_true, List.append_eq]
    rw [ih (fun d hd => h d (by simp [hd]))]

theorem isDigitChar_ne_minus (c : Char) (h : isDigitChar c = true) :
    c ≠ '-' := by
  intro h2
  subst h2
  simp [isDigitChar] at h

theorem parseNum_printNat (n : Nat) (rest : List Char)
    (h2 : headNotDigit rest = true) :
    parseNum (printNat n ++ rest) = some (.jnum (n : Int), rest) := by
  cases hpn : printNat n with
  | nil => exact absurd hpn (printNat_ne_nil n)
  | cons c ds =>
    have hall : ∀ d ∈ printNat n, isDigitChar d = true := printNat_all_digits n
    have hc : isDigitChar c = true := hall c (by simp [hpn])
    have hspan : spanDigits (c :: ds ++ rest) = (c :: ds, rest) := by
      rw [← hpn]
      exact spanDigits_append _ _ hall h2
    simp only [List.cons_append, parseNum, isDigitChar_ne_minus c hc, if_false]
    rw [show c :: (ds ++ rest) = (c :: ds) ++ rest from rfl, hspan]
    have hval : digitsVal (c :: ds) = n := by rw [← hpn, digitsVal_printNat]
    simp [hval]

/-- Characters that JSON string escaping leaves alone and that close no JSON
token: not a quote, not a backslash, not a control character. -/
def plainChar (c : Char) : Bool :=
  !(c == '"') && !(c == '\\') && decide (32 ≤ c.toNat)

/-- Keys made only of plain characters serialize as themselves. -/
def plainKey (s : String) : Bool := s.data.all plainChar

theorem escChar_plain (c : Char) (h : plainChar c = true) : escChar c = [c] := by
  simp only [plainChar, Bool.and_eq_true, Bool.not_eq_true', beq_eq_false_iff_ne,
    ne_eq, decide_eq_true_eq] at h
  have h1 : c ≠ '\n' := by intro h2; rw [h2] at h; exact absurd h.2 (by decide)
  have h2 : c ≠ '\t' := by intro h2; rw [h2] at h; exact absurd h.2 (by decide)
  have h3 : c ≠ '\r' := by intro h2; rw [h2] at h; exact absurd h.2 (by decide)
  simp [escChar, h.1.1, h.1.2, h1, h2, h3, show ¬(c.toNat < 32) by omega]

theorem escList_plain (l : List Char) (h : l.all plainChar = true) :
    l.foldr (fun c acc => escChar c ++ acc) [] = l := by
  induction l with
  | nil => rfl
  | cons c tl ih =>
    simp only [List.all_cons, Bool.and_eq_true] at h
    simp [escChar_plain c h.1, ih h.2]

theorem escString_plain (s : String) (h : s.data.all plainChar = true) :
    escString s = s.data := by
  rw [escString]
  exact escList_plain s.data h

theorem parseStrBody_plain (body : List Char) (rest : List Char)
    (h : body.all plainChar = true) :
    parseStrBody (body ++ '"' :: rest) = some (body, rest) := by
  induction body with
  | nil => rfl
  | cons c tl ih =>
    simp only [List.all_cons, Bool.and_eq_true] at h
    have hp := h.1
    simp only [plainChar, Bool.and_eq_true, Bool.not_eq_true', beq_eq_false_iff_ne,
      ne_eq] at hp
    simp [parseStrBody, hp.1.1, hp.1.2, ih h.2]

/-- The wrapper object `{"data":{key:n}}` the localStorage backend reaches
after repeated counter increments. -/
def wrapNum (k : String) (n : Nat) : JSValue :=
  .jobj (.mcons "data" (.jobj (.mcons k (.jnum (n : Int)) .mnil)) .mnil)

theorem strVal_wrapNum (k : String) (hk : plainKey k = true) (n : Nat) :
    strVal (wrapNum k n) =
      '{' :: '"' :: 'd' :: 'a' :: 't' :: 'a' :: '"' :: ':' :: '{' :: '"' ::
        (k.data ++ '"' :: ':' :: (printNat n ++ ['}', '}'])) := by
  have hesc : escString k = k.data := escString_plain k hk
  have hdata : escString "data" = ['d', 'a', 't', 'a'] := rfl
  simp [wrapNum, strVal, strMems, hesc, hdata, printInt]

theorem parseVal_brace_quote (fuel : Nat) (rest : List Char) :
    parseVal (fuel + 1) ('{' :: '"' :: rest) =
      match parseObjItems fuel ('"' :: rest) with
      | some (raw, rest2) => some (.jobj (buildMems raw), rest2)
      | none => none := by
  simp [parseVal, skipWs, isWsChar]

theorem parseObjItems_one (fuel : Nat) (body rest : List Char)
    (v : JSValue) (r3 : List Char) (rest2 : List Char)
    (hb : body.all plainChar = true)
    (hv : parseVal fuel rest = some (v, r3))
    (hr : skipWs r3 = '}' :: rest2) :
    parseObjItems (fuel + 1) ('"' :: (body ++ '"' :: ':' :: rest)) =
      some ([(String.mk body, v)], rest2) := by
  simp [parseObjItems, skipWs, isWsChar, parseStrBody_plain body _ hb, hv, hr]

theorem parseVal_printNat (e n : Nat) (rest : List Char)
    (h2 : headNotDigit rest = true) :
    parseVal (e + 1) (printNat n ++ rest) = some (.jnum (n : Int), rest) := by
  have hnum := parseNum_printNat n rest h2
  cases hpn : printNat n with
  | nil => exact absurd hpn (printNat_ne_nil n)
  | cons c ds =>
    rw [hpn] at hnum
    have hc : isDigitChar c = true :=
      printNat_all_digits n c (by simp [hpn])
    have hws : isWsChar c = false := by
      simp only [isDigitChar, Bool.and_eq_true, decide_eq_true_eq] at hc
      simp only [isWsChar, Bool.or_eq_false_iff, decide_eq_false_iff_not]
      refine ⟨⟨⟨?_, ?_⟩, ?_⟩, ?_⟩ <;>
        (intro h3; rw [h3] at hc; exact absurd hc (by decide))
    have hn : ¬(c = 'n') := by intro h3; rw [h3] at hc; simp [isDigitChar] at hc
    have ht : ¬(c = 't') := by intro h3; rw [h3] at hc; simp [isDigitChar] at hc
    have hf : ¬(c = 'f') := by intro h3; rw [h3] at hc; simp [isDigitChar] at hc
    have hq : ¬(c = '"') := by intro h3; rw [h3] at hc; simp [isDigitChar] at hc
    have hl : ¬(c = '[') := by intro h3; rw [h3] at hc; simp [isDigitChar] at hc
    have hbr : ¬(c = '{') := by intro h3; rw [h3] at hc; simp [isDigitChar] at hc
    simp only [List.cons_append, parseVal, skipWs, hws, Bool.false_eq_true,
      if_false, hn, ht, hf, hq, hl, hbr]
    exact hnum

theorem parseVal_wrapNum (k : String) (hk : plainKey k = true) (n : Nat)
    (e : Nat) :
    parseVal (e + 5) (strVal (wrapNum k n)) = some (wrapNum k n, []) := by
  rw [strVal_wrapNum k hk n]
  have hinner : parseVal (e + 3)
      ('{' :: '"' :: (k.data ++ '"' :: ':' :: (printNat n ++ ['}', '}']))) =
      some (.jobj (.mcons k (.jnum (n : Int)) .mnil), ['}']) := by
    rw [show e + 3 = (e + 2) + 1 from rfl, parseVal_brace_quote]
    rw [parseObjItems_one (e + 1) k.data (printNat n ++ ['}', '}'])
      (.jnum (n : Int)) ['}', '}'] ['}'] hk
      (parseVal_printNat e n ['}', '}'] (by decide)) (by decide)]
    simp [buildMems, assignMem]
  have houter : parseObjItems (e + 4)
      ('"' :: ('d' :: 'a' :: 't' :: 'a' :: '"' :: ':' :: '{' :: '"' ::
        (k.data ++ '"' :: ':' :: (printNat n ++ ['}', '}'])))) =
      some ([("data", .jobj (.mcons k (.jnum (n : Int)) .mnil))], []) := by
    have := parseObjItems_one (e + 3) ['d', 'a', 't', 'a']
      ('{' :: '"' :: (k.data ++ '"' :: ':' :: (printNat n ++ ['}', '}'])))
      (.jobj (.mcons k (.jnum (n : Int)) .mnil)) ['}'] []
      (by decide) hinner (by decide)
    simpa using this
  rw [show e + 5 = (e + 4) + 1 from rfl, parseVal_brace_quote, houter]
  simp [buildMems, assignMem, wrapNum]

theorem parseJSON_wrapNum (k : String) (hk : plainKey k = true) (n : Nat) :
    parseJSON (stringifyVal (wrapNum k n)) = some (wrapNum k n) := by
  rw [parseJSON, stringifyVal]
  have hdata : (String.mk (strVal (wrapNum k n))).data = strVal (wrapNum k n) := rfl
  rw [hdata]
  have hlen : 4 ≤ (strVal (wrapNum k n)).length := by
    rw [strVal_wrapNum k hk n]
    simp
  obtain ⟨e, he⟩ : ∃ e, (strVal (wrapNum k n)).length + 1 = e + 5 :=
    ⟨(strVal (wrapNum k n)).length - 4, by omega⟩
  rw [he, parseVal_wrapNum k hk n e]
  simp [skipWs]

/-- The in-memory wrapper after `json.data[key] = x` on a well-formed wrapper
whose top object has members `ms` and whose `data` object has members `dm`. -/
def updWrapper (ms dm : JSMems) (k : String) (x : JSValue) : JSValue :=
  .jobj (assignMem ms "data" (.jobj (assignMem dm k x)))

theorem stringifyVal_jobj_ne_empty (ms2 : JSMems) :
    stringifyVal (.jobj ms2) ≠ "" := by
  rw [stringifyVal, strVal]
  intro h
  have h2 : ('{' :: (strMems ms2 true ++ ['}'])) = ([] : List Char) :=
    congrArg String.data h
  simp at h2

namespace LocalStorageCacheStore

theorem get_eq_of_wrapper (k : String) (ms dm : JSMems) (st : Slot)
    (hjson : getJSON st = .ok (.jobj ms))
    (hdata : getMem ms "data" = some (.jobj dm)) :
    get k st = .ok ((getMem dm k).getD .jundefined) := by
  simp [get, hjson, jsGet, hdata, Bind.bind, Except.bind]

theorem set_eq_of_wrapper (k : String) (v : JSValue) (ms dm : JSMems) (st : Slot)
    (hjson : getJSON st = .ok (.jobj ms))
    (hdata : getMem ms "data" = some (.jobj dm)) :
    set k v st = (.ok (), some (stringifyVal (updWrapper ms dm k v))) := by
  simp [set, hjson, jsGet, hdata, jsSet, putJSON, updWrapper]

theorem put_eq_of_wrapper (k : String)
    (update : JSValue → Except JSError JSValue) (next : JSValue)
    (ms dm : JSMems) (st : Slot)
    (hjson : getJSON st = .ok (.jobj ms))
    (hdata : getMem ms "data" = some (.jobj dm))
    (hupd : update ((getMem dm k).getD .jundefined) = .ok next) :
    put k update st =
      (.ok ⟨(getMem dm k).getD .jundefined, next⟩,
        some (stringifyVal (updWrapper ms dm k next))) := by
  simp [put, hjson, jsGet, hdata, hupd, jsSet, putJSON, updWrapper]

theorem put_eq_of_update_error (k : String)
    (update : JSValue → Except JSError JSValue) (e : JSError)
    (ms dm : JSMems) (st : Slot)
    (hjson : getJSON st = .ok (.jobj ms))
    (hdata : getMem ms "data" = some (.jobj dm))
    (hupd : update ((getMem dm k).getD .jundefined) = .error e) :
    put k update st = (.error e, st) := by
  simp [put, hjson, jsGet, hdata, hupd]

theorem get_after_write (j k : String) (x : JSValue) (ms dm : JSMems)
    (hnodupMs : keysNodup ms = true) (hnodupDm : keysNodup dm = true)
    (hrt : parseJSON (stringifyVal (updWrapper ms dm k x))
      = some (canonVal (updWrapper ms dm k x))) :
    get j (some (stringifyVal (updWrapper ms dm k x)))
      = .ok ((canonRead (getMem (assignMem dm k x) j)).getD .jundefined) := by
  have hne : stringifyVal (updWrapper ms dm k x) ≠ "" :=
    stringifyVal_jobj_ne_empty _
  have hjson2 : getJSON (some (stringifyVal (updWrapper ms dm k x)))
      = .ok (canonVal (updWrapper ms dm k x)) := by
    simp [getJSON, hne, hrt]
  have hcanon : canonVal (updWrapper ms dm k x)
      = .jobj (canonMems (assignMem ms "data" (.jobj (assignMem dm k x)))) := by
    simp [updWrapper, canonVal]
  have hdataRead : getMem (canonMems (assignMem ms "data" (.jobj (assignMem dm k x)))) "data"
      = some (.jobj (canonMems (assignMem dm k x))) := by
    rw [getMem_canonMems _ _ (keysNodup_assignMem ms "data" _ hnodupMs),
      getMem_assignMem_self]
    rfl
  have hjRead : getMem (canonMems (assignMem dm k x)) j
      = canonRead (getMem (assignMem dm k x) j) :=
    getMem_canonMems _ _ (keysNodup_assignMem dm k _ hnodupDm)
  simp [get, hjson2, hcanon, jsGet, hdataRead, hjRead, Bind.bind, Except.bind]

end LocalStorageCacheStore

theorem canonRead_getD_of_undefFreeMems (dm : JSMems) (j : String)
    (huf : undefFreeMems dm = true) :
    (canonRead (getMem dm j)).getD .jundefined = (getMem dm j).getD .jundefined := by
  cases h : getMem dm j with
  | none => rfl
  | some w =>
    have hw : undefFreeVal w = true := getMem_undefFree dm j w huf h
    cases w with
    | jundefined => simp [undefFreeVal] at hw
    | jnull => rfl
    | jbool b => rfl
    | jnum i => rfl
    | jstr s => rfl
    | jarr xs =>
      simp only [canonRead, Option.getD_some]
      exact canonVal_eq_self _ hw
    | jobj ms2 =>
      simp only [canonRead, Option.getD_some]
      exact canonVal_eq_self _ hw

/-- The number `(prev || 0)` evaluates to for the values an increment counter
ever sees: a stored number is itself, the absent `undefined` is `0`. -/
def jsNumOr0 : JSValue → Int
  | .jnum m => m
  | _ => 0

/-- The increment update function `prev => (prev || 0) + 1` as passed to the
localStorage backend's `put`. -/
def jsIncr : JSValue → Except JSError JSValue :=
  fun prev => .ok (.jnum (jsNumOr0 prev + 1))

/-- One whole atomic `put(k, incrementFn)` of the localStorage backend, as a
state transformer on the blob slot: the synchronous body runs with no
suspension point, so a pending call contributes exactly this one step to any
interleaving. -/
def lsIncrStep (k : String) (st : LocalStorageCacheStore.Slot) :
    LocalStorageCacheStore.Slot :=
  (LocalStorageCacheStore.put k jsIncr st).2

/-- The increment update function `prev => (prev || 0) + 1` as passed to the
IndexedDB backend's `put` (the get request result of a missing key is
`undefined`, modeled `none`). -/
def idbIncr : Option Int → Except JSError Int :=
  fun p => .ok (p.getD 0 + 1)

/-- One whole atomic `put(k, incrementFn)` of the IndexedDB backend: the read
and the write share one read-write transaction and the engine serializes
overlapping read-write transactions, so a pending call contributes exactly
this one step to any interleaving. -/
def idbIncrStep (k : String) (st : IndexedCacheStore.Table Int) :
    IndexedCacheStore.Table Int :=
  (IndexedCacheStore.put k idbIncr st).2

/-- The blob slot after `i` increments of key `k` starting from a fresh store. -/
def lsCounterState (k : String) : Nat → LocalStorageCacheStore.Slot
  | 0 => none
  | i + 1 => some (stringifyVal (wrapNum k (i + 1)))

/-- The table after `i` increments of key `k` starting from an empty table. -/
def idbCounterState (k : String) : Nat → IndexedCacheStore.Table Int
  | 0 => []
  | i + 1 => [(k, ((i + 1 : Nat) : Int))]

theorem ls_put_incr_none (k : String) :
    LocalStorageCacheStore.put k jsIncr none =
      (.ok ⟨.jundefined, .jnum 1⟩, some (stringifyVal (wrapNum k 1))) := rfl

theorem ls_put_incr_wrap (k : String) (hk : plainKey k = true) (i : Nat) :
    LocalStorageCacheStore.put k jsIncr (some (stringifyVal (wrapNum k i))) =
      (.ok ⟨.jnum (i : Int), .jnum ((i + 1 : Nat) : Int)⟩,
        some (stringifyVal (wrapNum k (i + 1)))) := by
  have hne : stringifyVal (wrapNum k i) ≠ "" := stringifyVal_jobj_ne_empty _
  have hjson : LocalStorageCacheStore.getJSON (some (stringifyVal (wrapNum k i)))
      = .ok (wrapNum k i) := by
    simp [LocalStorageCacheStore.getJSON, hne, parseJSON_wrapNum k hk i]
  simp only [LocalStorageCacheStore.put]
  rw [hjson]
  simp [wrapNum, jsGet, getMem, jsIncr, jsNumOr0, jsSet, assignMem,
    LocalStorageCacheStore.putJSON]

theorem lsIncrStep_counter (k : String) (hk : plainKey k = true) (i : Nat) :
    lsIncrStep k (lsCounterState k i) = lsCounterState k (i + 1) := by
  cases i with
  | zero =>
    simp [lsIncrStep, lsCounterState, ls_put_incr_none k]
  | succ j =>
    simp [lsIncrStep, lsCounterState, ls_put_incr_wrap k hk (j + 1)]

theorem ls_get_counter (k : String) (hk : plainKey k = true) (i : Nat)
    (hi : 0 < i) :
    LocalStorageCacheStore.get k (lsCounterState k i) = .ok (.jnum (i : Int)) := by
  cases i with
  | zero => omega
  | succ j =>
    have hne : stringifyVal (wrapNum k (j + 1)) ≠ "" := stringifyVal_jobj_ne_empty _
    have hjson : LocalStorageCacheStore.getJSON
        (some (stringifyVal (wrapNum k (j + 1)))) = .ok (wrapNum k (j + 1)) := by
      simp [LocalStorageCacheStore.getJSON, hne, parseJSON_wrapNum k hk (j + 1)]
    simp only [lsCounterState, LocalStorageCacheStore.get, Bind.bind,
      Except.bind]
    rw [hjson]
    simp [wrapNum, jsGet, getMem]

theorem lsIncr_foldl (k : String) (hk : plainKey k = true)
    (ops : List (LocalStorageCacheStore.Slot → LocalStorageCacheStore.Slot))
    (h : ∀ g ∈ ops, g = lsIncrStep k) (i : Nat) :
    ops.foldl (fun st g => g st) (lsCounterState k i)
      = lsCounterState k (i + ops.length) := by
  induction ops generalizing i with
  | nil => simp [List.foldl]
  | cons g tl ih =>
    have hg : g = lsIncrStep k := h g (by simp)
    simp only [List.foldl_cons, hg, lsIncrStep_counter k hk i]
    rw [ih (fun g2 hg2 => h g2 (by simp [hg2]))]
    simp only [List.length_cons]
    congr 1
    omega

theorem idbIncrStep_counter (k : String) (i : Nat) :
    idbIncrStep k (idbCounterState k i) = idbCounterState k (i + 1) := by
  cases i with
  | zero =>
    simp [idbIncrStep, idbCounterState, IndexedCacheStore.put,
      IndexedCacheStore.lookup, idbIncr, IndexedCacheStore.assign]
  | succ j =>
    have hcast : (((j + 1 : Nat) : Int) + 1) = ((j + 2 : Nat) : Int) := by
      push_cast; ring
    simp [idbIncrStep, idbCounterState, IndexedCacheStore.put,
      IndexedCacheStore.lookup, idbIncr, IndexedCacheStore.assign, hcast]

theorem idb_lookup_counter (k : String) (i : Nat) (hi : 0 < i) :
    IndexedCacheStore.lookup k (idbCounterState k i) = some ((i : Nat) : Int) := by
  cases i with
  | zero => omega
  | succ j => simp [idbCounterState, IndexedCacheStore.lookup]

theorem idbIncr_foldl (k : String)
    (ops : List (IndexedCacheStore.Table Int → IndexedCacheStore.Table Int))
    (h : ∀ f ∈ ops, f = idbIncrStep k) (i : Nat) :
    ops.foldl (fun st f => f st) (idbCounterState k i)
      = idbCounterState k (i + ops.length) := by
  induction ops generalizing i with
  | nil => simp [List.foldl]
  | cons f tl ih =>
    have hf : f = idbIncrStep k := h f (by simp)
    simp only [List.foldl_cons, hf, idbIncrStep_counter k i]
    rw [ih (fun f2 hf2 => h f2 (by simp [hf2]))]
    simp only [List.length_cons]
    congr 1
    omega

namespace IndexedCacheStore

theorem issuedOps_append (a b : List OpenEvent) :
    issuedOps (a ++ b) = issuedOps a ++ issuedOps b := by
  induction a with
  | nil => simp [issuedOps]
  | cons ev tl ih =>
    cases ev with
    | issue op => simp [issuedOps, ih]
    | openOk g => simp [issuedOps, ih]

theorem foldl_stepConn_no_open (pre : List OpenEvent)
    (hpre : ∀ g : Nat, OpenEvent.openOk g ∉ pre)
    (w : List Nat) (ex : List (Nat × Nat)) (o : Nat) :
    pre.foldl stepConn ⟨none, w, ex, o⟩ = ⟨none, w ++ issuedOps pre, ex, o⟩ := by
  induction pre generalizing w with
  | nil => simp [issuedOps]
  | cons ev tl ih =>
    cases ev with
    | issue op =>
      have hstep : stepConn ⟨none, w, ex, o⟩ (.issue op)
          = ⟨none, w ++ [op], ex, o⟩ := rfl
      rw [List.foldl_cons, hstep,
        ih (fun g hg => hpre g (by simp [hg])) (w ++ [op])]
      simp [issuedOps]
    | openOk g => exact absurd (by simp) (hpre g)

theorem foldl_stepConn_after_open (post : List OpenEvent) (h : Nat)
    (ex : List (Nat × Nat)) (o : Nat) :
    post.foldl stepConn ⟨some h, [], ex, o⟩ =
      ⟨some h, [], ex ++ (issuedOps post).map (fun op => (op, h)), o⟩ := by
  induction post generalizing ex with
  | nil => simp [issuedOps]
  | cons ev tl ih =>
    cases ev with
    | issue op =>
      have hstep : stepConn ⟨some h, [], ex, o⟩ (.issue op)
          = ⟨some h, [], ex ++ [(op, h)], o⟩ := rfl
      rw [List.foldl_cons, hstep, ih (ex ++ [(op, h)])]
      simp [issuedOps]
    | openOk g =>
      have hstep : stepConn ⟨some h, [], ex, o⟩ (.openOk g)
          = ⟨some h, [], ex, o⟩ := rfl
      rw [List.foldl_cons, hstep, ih ex]
      simp [issuedOps]

theorem runConn_single_open (pre post : List OpenEvent) (h : Nat)
    (hpre : ∀ g : Nat, OpenEvent.openOk g ∉ pre) :
    runConn (pre ++ .openOk h :: post) =
      ⟨some h, [], (issuedOps (pre ++ .openOk h :: post)).map (fun op => (op, h)), 1⟩ := by
  rw [runConn, List.foldl_append]
  have h1 : pre.foldl stepConn initConn = ⟨none, issuedOps pre, [], 1⟩ := by
    rw [show initConn = (⟨none, [], [], 1⟩ : ConnState) from rfl,
      foldl_stepConn_no_open pre hpre [] [] 1]
    simp
  rw [h1, List.foldl_cons]
  have h2 : stepConn ⟨none, issuedOps pre, [], 1⟩ (.openOk h)
      = ⟨some h, [], (issuedOps pre).map (fun op => (op, h)), 1⟩ := by
    simp [stepConn]
  rw [h2, foldl_stepConn_after_open post h _ 1]
  simp [issuedOps_append, issuedOps]

end IndexedCacheStore

/-- C1.  For every store instance and every key `k`, issuing `N` concurrent
`put(k, incrementFn)` calls yields a final value reflecting exactly `N`
increments, with no lost updates.  Each pending call contributes exactly one
atomic step to the interleaving (the IndexedDB `put` reads and writes inside a
single read-write transaction that the engine serializes against overlapping
ones; the localStorage `put` body is synchronous with no suspension point), so
an arbitrary interleaving of `N` concurrent calls is an arbitrary list of `N`
such steps; starting from an absent value, the final `get(k)` returns `N` on
both backends. -/
theorem concurrent_put_increments (k : String) (hk : plainKey k = true)
    (n : Nat) (hn : 0 < n)
    (idbOps : List (IndexedCacheStore.Table Int → IndexedCacheStore.Table Int))
    (lsOps : List (LocalStorageCacheStore.Slot → LocalStorageCacheStore.Slot))
    (hidb : ∀ f ∈ idbOps, f = idbIncrStep k) (hidbLen : idbOps.length = n)
    (hls : ∀ g ∈ lsOps, g = lsIncrStep k) (hlsLen : lsOps.length = n) :
    IndexedCacheStore.get k (idbOps.foldl (fun st f => f st) [])
      = some ((n : Nat) : Int)
    ∧ LocalStorageCacheStore.get k (lsOps.foldl (fun st g => g st) none)
      = .ok (.jnum ((n : Nat) : Int)) := by
  constructor
  · have h1 := idbIncr_foldl k idbOps hidb 0
    rw [show idbCounterState k 0 = [] from rfl] at h1
    rw [IndexedCacheStore.get, h1]
    simp only [Nat.zero_add, hidbLen]
    exact idb_lookup_counter k n hn
  · have h1 := lsIncr_foldl k hk lsOps hls 0
    rw [show lsCounterState k 0 = none from rfl] at h1
    rw [h1]
    simp only [Nat.zero_add, hlsLen]
    exact ls_get_counter k hk n hn

theorem concurrent_put_increments_witness :
    plainKey "c" = true ∧ 0 < 50
    ∧ (List.replicate 50 (idbIncrStep "c")).length = 50
    ∧ (List.replicate 50 (lsIncrStep "c")).length = 50
    ∧ IndexedCacheStore.get "c"
        ((List.replicate 50 (idbIncrStep "c")).foldl (fun st f => f st) [])
        = some ((50 : Nat) : Int)
    ∧ LocalStorageCacheStore.get "c"
        ((List.replicate 50 (lsIncrStep "c")).foldl (fun st g => g st) none)
        = .ok (.jnum ((50 : Nat) : Int)) := by
  have h := concurrent_put_increments "c" (by decide) 50 (by decide)
    (List.replicate 50 (idbIncrStep "c")) (List.replicate 50 (lsIncrStep "c"))
    (fun f hf => List.eq_of_mem_replicate hf) (by simp)
    (fun g hg => List.eq_of_mem_replicate hg) (by simp)
  exact ⟨by decide, by decide, by simp, by simp, h.1, h.2⟩

/-- C2.  On both backends, `put(k, fn)` returns a record whose `prev` field is
exactly what `get(k)` returned immediately before the call (the absent case
surfacing as the explicit no-previous-value signal passed to `fn`: `none` for
the IndexedDB backend's request result, the value `undefined` for the
localStorage backend), whose `next` field is `fn(prev)`, and a subsequent
`get(k)` returns that same `next` (for the localStorage backend, under the
hypothesis that the updated wrapper survives the stringify-parse round trip). -/
theorem put_returns_prev_next_and_get (α : Type) (k : String)
    (upd : Option α → Except JSError α) (next : α)
    (st : IndexedCacheStore.Table α)
    (hupd : upd (IndexedCacheStore.lookup k st) = .ok next)
    (updLS : JSValue → Except JSError JSValue) (nextLS : JSValue)
    (ms dm : JSMems) (stLS : LocalStorageCacheStore.Slot)
    (hjson : LocalStorageCacheStore.getJSON stLS = .ok (.jobj ms))
    (hdata : getMem ms "data" = some (.jobj dm))
    (hupdLS : updLS ((getMem dm k).getD .jundefined) = .ok nextLS)
    (hnodupMs : keysNodup ms = true) (hnodupDm : keysNodup dm = true)
    (hrt : parseJSON (stringifyVal (updWrapper ms dm k nextLS))
      = some (canonVal (updWrapper ms dm k nextLS)))
    (hstor : storable nextLS = true) :
    (IndexedCacheStore.put k upd st).1
        = .ok ⟨IndexedCacheStore.get k st, next⟩
    ∧ IndexedCacheStore.get k (IndexedCacheStore.put k upd st).2 = some next
    ∧ (LocalStorageCacheStore.put k updLS stLS).1
        = .ok ⟨(getMem dm k).getD .jundefined, nextLS⟩
    ∧ LocalStorageCacheStore.get k stLS = .ok ((getMem dm k).getD .jundefined)
    ∧ LocalStorageCacheStore.get k (LocalStorageCacheStore.put k updLS stLS).2
        = .ok nextLS := by
  refine ⟨?_, ?_, ?_, ?_, ?_⟩
  · simp [IndexedCacheStore.put, hupd, IndexedCacheStore.get]
  · simp [IndexedCacheStore.put, hupd, IndexedCacheStore.get,
      IndexedCacheStore.lookup_assign_self]
  · rw [LocalStorageCacheStore.put_eq_of_wrapper k updLS nextLS ms dm stLS
      hjson hdata hupdLS]
  · exact LocalStorageCacheStore.get_eq_of_wrapper k ms dm stLS hjson hdata
  · rw [LocalStorageCacheStore.put_eq_of_wrapper k updLS nextLS ms dm stLS
      hjson hdata hupdLS]
    rw [LocalStorageCacheStore.get_after_write k k nextLS ms dm
      hnodupMs hnodupDm hrt, getMem_assignMem_self,
      canonRead_getD_of_storable nextLS hstor]

theorem put_returns_prev_next_and_get_witness :
    ((fun p => .ok (p.getD 0 + 7) : Option Int → Except JSError Int)
        (IndexedCacheStore.lookup "c" ([] : IndexedCacheStore.Table Int))
        = .ok 7)
    ∧ LocalStorageCacheStore.getJSON none
        = Except.ok (JSValue.jobj (.mcons "data" (.jobj .mnil) .mnil))
    ∧ getMem (.mcons "data" (.jobj .mnil) .mnil) "data" = some (.jobj .mnil)
    ∧ (IndexedCacheStore.put "c"
        (fun p => .ok (p.getD 0 + 7) : Option Int → Except JSError Int)
        ([] : IndexedCacheStore.Table Int)).1
        = .ok ⟨IndexedCacheStore.get "c" ([] : IndexedCacheStore.Table Int), 7⟩
    ∧ IndexedCacheStore.get "c"
        (IndexedCacheStore.put "c"
          (fun p => .ok (p.getD 0 + 7) : Option Int → Except JSError Int)
          ([] : IndexedCacheStore.Table Int)).2 = some 7
    ∧ (LocalStorageCacheStore.put "c" (fun _ => .ok (.jnum 7)) none).1
        = .ok ⟨.jundefined, .jnum 7⟩
    ∧ LocalStorageCacheStore.get "c" none = .ok .jundefined
    ∧ LocalStorageCacheStore.get "c"
        (LocalStorageCacheStore.put "c" (fun _ => .ok (.jnum 7)) none).2
        = .ok (.jnum 7) := by
  have h := put_returns_prev_next_and_get Int "c"
    (fun p => .ok (p.getD 0 + 7)) 7 [] (by simp [IndexedCacheStore.lookup])
    (fun _ => .ok (.jnum 7)) (.jnum 7)
    (.mcons "data" (.jobj .mnil) .mnil) .mnil none
    rfl rfl rfl rfl rfl rfl rfl
  exact ⟨rfl, rfl, rfl, h.1, h.2.1, h.2.2.1, h.2.2.2.1, h.2.2.2.2⟩

/-- C3.  On both backends, when the caller-supplied update function raises an
error on the current value of the key, `put` rejects with that error and
performs no write: the resulting state is exactly the state before the call
(so every key, not just `k`, reads the same afterwards). -/
theorem put_update_error_leaves_state (α : Type) (k : String)
    (upd : Option α → Except JSError α) (e : JSError)
    (st : IndexedCacheStore.Table α)
    (hupd : upd (IndexedCacheStore.lookup k st) = .error e)
    (updLS : JSValue → Except JSError JSValue) (eLS : JSError)
    (ms dm : JSMems) (stLS : LocalStorageCacheStore.Slot)
    (hjson : LocalStorageCacheStore.getJSON stLS = .ok (.jobj ms))
    (hdata : getMem ms "data" = some (.jobj dm))
    (hupdLS : updLS ((getMem dm k).getD .jundefined) = .error eLS) :
    IndexedCacheStore.put k upd st = (.error e, st)
    ∧ LocalStorageCacheStore.put k updLS stLS = (.error eLS, stLS) := by
  constructor
  · simp [IndexedCacheStore.put, hupd]
  · exact LocalStorageCacheStore.put_eq_of_update_error k updLS eLS ms dm stLS
      hjson hdata hupdLS

theorem put_update_error_leaves_state_witness :
    ((fun _ => .error (.userError 3) : Option Int → Except JSError Int)
        (IndexedCacheStore.lookup "c" ([("c", (1 : Int))]))
        = .error (.userError 3))
    ∧ IndexedCacheStore.put "c"
        (fun _ => .error (.userError 3) : Option Int → Except JSError Int)
        [("c", (1 : Int))] = (.error (.userError 3), [("c", (1 : Int))])
    ∧ LocalStorageCacheStore.put "c" (fun _ => .error (.userError 3)) none
        = (.error (.userError 3), none) := by
  have h := put_update_error_leaves_state Int "c"
    (fun _ => .error (.userError 3)) (.userError 3) [("c", (1 : Int))] rfl
    (fun _ => .error (.userError 3)) (.userError 3)
    (.mcons "data" (.jobj .mnil) .mnil) .mnil none rfl rfl rfl
  exact ⟨rfl, h.1, h.2⟩

/-- C4 (counterexample).  The claim says a malformed stored blob is tolerated:
the operation treats it as an empty mapping and proceeds.  On the blob
`"oops"`, which is not parseable JSON, `get` instead rejects with the
`SyntaxError` of `JSON.parse` — the code only falls back to the empty wrapper
when the stored text is null or empty (falsy), not when it is malformed. -/
theorem malformed_blob_get_fails_counterexample :
    LocalStorageCacheStore.get "k" (some "oops") = .error .syntaxError
    ∧ ∀ v : JSValue, LocalStorageCacheStore.get "k" (some "oops") ≠ .ok v := by
  have h : LocalStorageCacheStore.get "k" (some "oops")
      = .error .syntaxError := rfl
  refine ⟨h, fun v hv => ?_⟩
  rw [h] at hv
  exact Except.noConfusion hv

/-- C4 (amended).  An absent item or an empty stored string is treated as the
empty mapping, but a malformed non-empty blob makes `JSON.parse` throw inside
`getJSON`, so `get`, `set`, `put` and `remove` reject with the `SyntaxError`
(leaving the slot unchanged); only `clear`, which never reads the blob, still
succeeds. -/
theorem malformed_blob_rejects_operations (k : String) (v : JSValue)
    (upd : JSValue → Except JSError JSValue) (s : String)
    (hs : s ≠ "") (hmal : parseJSON s = none) :
    LocalStorageCacheStore.get k (some s) = .error .syntaxError
    ∧ LocalStorageCacheStore.set k v (some s) = (.error .syntaxError, some s)
    ∧ LocalStorageCacheStore.put k upd (some s) = (.error .syntaxError, some s)
    ∧ LocalStorageCacheStore.remove k (some s) = (.error .syntaxError, some s)
    ∧ LocalStorageCacheStore.clear (some s) = (.ok (), none)
    ∧ LocalStorageCacheStore.getJSON none = .ok LocalStorageCacheStore.emptyJSON
    ∧ LocalStorageCacheStore.getJSON (some "")
        = .ok LocalStorageCacheStore.emptyJSON := by
  have hjson : LocalStorageCacheStore.getJSON (some s) = .error .syntaxError := by
    simp [LocalStorageCacheStore.getJSON, hs, hmal]
  refine ⟨?_, ?_, ?_, ?_, rfl, rfl, by simp [LocalStorageCacheStore.getJSON]⟩
  · simp [LocalStorageCacheStore.get, hjson, Bind.bind, Except.bind]
  · simp [LocalStorageCacheStore.set, hjson]
  · simp [LocalStorageCacheStore.put, hjson]
  · simp [LocalStorageCacheStore.remove, LocalStorageCacheStore.set, hjson]

theorem malformed_blob_rejects_operations_witness :
    ("oops" : String) ≠ "" ∧ parseJSON "oops" = none
    ∧ LocalStorageCacheStore.get "k" (some "oops") = .error .syntaxError
    ∧ LocalStorageCacheStore.set "k" (.jnum 1) (some "oops")
        = (.error .syntaxError, some "oops")
    ∧ LocalStorageCacheStore.put "k" (fun p => .ok p) (some "oops")
        = (.error .syntaxError, some "oops")
    ∧ LocalStorageCacheStore.remove "k" (some "oops")
        = (.error .syntaxError, some "oops")
    ∧ LocalStorageCacheStore.clear (some "oops") = (.ok (), none) := by
  have h := malformed_blob_rejects_operations "k" (.jnum 1) (fun p => .ok p)
    "oops" (by decide) rfl
  exact ⟨by decide, rfl, h.1, h.2.1, h.2.2.1, h.2.2.2.1, h.2.2.2.2.1⟩

/-- C5 (counterexample).  The claim says that after `remove(k)` the key stays
in the wrapper's key set as persisted in the stored blob.  Concretely: set
`"a"` to `1` on a fresh store (the blob is then the serialized wrapper with
the single data member `"a"`), then remove `"a"`.  The new stored blob is the
serialization of the empty wrapper, and parsing it back yields a wrapper whose
data object has no members at all — the key was physically dropped from the
persisted blob, because `JSON.stringify` omits members valued `undefined`. -/
theorem remove_persisted_deletion_counterexample :
    (LocalStorageCacheStore.set "a" (.jnum 1) none).2
      = some (stringifyVal (wrapNum "a" 1))
    ∧ (LocalStorageCacheStore.remove "a"
        (some (stringifyVal (wrapNum "a" 1)))).2
      = some (stringifyVal LocalStorageCacheStore.emptyJSON)
    ∧ parseJSON (stringifyVal LocalStorageCacheStore.emptyJSON)
      = some (.jobj (.mcons "data" (.jobj .mnil) .mnil))
    ∧ containsKey .mnil "a" = false := ⟨rfl, rfl, rfl, rfl⟩

/-- C5 (amended).  On a well-formed wrapper state, `remove(k)` assigns the
explicit absent marker `undefined` to `k` in the in-memory wrapper — the key
is still present there — but the blob it persists is the serialization of that
wrapper, and serialization omits `undefined`-valued members, so `k` is not
among the members that survive to the stored blob (the member list the
parse of the new blob yields): persisted, the removal is a physical delete. -/
theorem remove_absent_marker_not_persisted (k : String) (ms dm : JSMems)
    (st : LocalStorageCacheStore.Slot)
    (hjson : LocalStorageCacheStore.getJSON st = .ok (.jobj ms))
    (hdata : getMem ms "data" = some (.jobj dm))
    (hnodupDm : keysNodup dm = true) :
    (LocalStorageCacheStore.remove k st).1 = .ok ()
    ∧ (LocalStorageCacheStore.remove k st).2
        = some (stringifyVal (updWrapper ms dm k .jundefined))
    ∧ getMem (assignMem dm k .jundefined) k = some .jundefined
    ∧ containsKey (assignMem dm k .jundefined) k = true
    ∧ containsKey (canonMems (assignMem dm k .jundefined)) k = false := by
  have hset := LocalStorageCacheStore.set_eq_of_wrapper k .jundefined ms dm st
    hjson hdata
  refine ⟨?_, ?_, getMem_assignMem_self dm k .jundefined,
    containsKey_assignMem_self dm k .jundefined, ?_⟩
  · rw [LocalStorageCacheStore.remove, hset]
  · rw [LocalStorageCacheStore.remove, hset]
  · rw [containsKey_eq_isSome_getMem,
      getMem_canonMems _ _ (keysNodup_assignMem dm k .jundefined hnodupDm),
      getMem_assignMem_self]
    rfl

theorem remove_absent_marker_not_persisted_witness :
    LocalStorageCacheStore.getJSON (some (stringifyVal (wrapNum "a" 1)))
      = .ok (.jobj (.mcons "data" (.jobj (.mcons "a" (.jnum 1) .mnil)) .mnil))
    ∧ getMem (.mcons "data" (.jobj (.mcons "a" (.jnum 1) .mnil)) .mnil) "data"
      = some (.jobj (.mcons "a" (.jnum 1) .mnil))
    ∧ keysNodup (.mcons "a" (.jnum 1) .mnil) = true
    ∧ (LocalStorageCacheStore.remove "a"
        (some (stringifyVal (wrapNum "a" 1)))).1 = .ok ()
    ∧ getMem (assignMem (.mcons "a" (.jnum 1) .mnil) "a" .jundefined) "a"
        = some .jundefined
    ∧ containsKey (canonMems (assignMem (.mcons "a" (.jnum 1) .mnil) "a" .jundefined)) "a"
        = false := by
  have h := remove_absent_marker_not_persisted "a"
    (.mcons "data" (.jobj (.mcons "a" (.jnum 1) .mnil)) .mnil)
    (.mcons "a" (.jnum 1) .mnil)
    (some (stringifyVal (wrapNum "a" 1))) rfl rfl rfl
  exact ⟨rfl, rfl, rfl, h.1, h.2.2.1, h.2.2.2.2⟩

/-- C6.  On both backends, `set(k, v)` followed by `get(k)` yields `v` for
every value that survives serialization: unconditionally for the IndexedDB
backend (values are stored as given), and for the localStorage backend under
the hypotheses that the updated wrapper survives the stringify-parse round
trip and that `v` contains no embedded `undefined` (`storable`). -/
theorem set_then_get_roundtrip (α : Type) (k : String) (v : α)
    (st : IndexedCacheStore.Table α)
    (vLS : JSValue) (ms dm : JSMems) (stLS : LocalStorageCacheStore.Slot)
    (hjson : LocalStorageCacheStore.getJSON stLS = .ok (.jobj ms))
    (hdata : getMem ms "data" = some (.jobj dm))
    (hnodupMs : keysNodup ms = true) (hnodupDm : keysNodup dm = true)
    (hrt : parseJSON (stringifyVal (updWrapper ms dm k vLS))
      = some (canonVal (updWrapper ms dm k vLS)))
    (hstor : storable vLS = true) :
    IndexedCacheStore.get k (IndexedCacheStore.set k v st) = some v
    ∧ (LocalStorageCacheStore.set k vLS stLS).1 = .ok ()
    ∧ LocalStorageCacheStore.get k (LocalStorageCacheStore.set k vLS stLS).2
        = .ok vLS := by
  refine ⟨?_, ?_, ?_⟩
  · exact IndexedCacheStore.lookup_assign_self st k v
  · rw [LocalStorageCacheStore.set_eq_of_wrapper k vLS ms dm stLS hjson hdata]
  · rw [LocalStorageCacheStore.set_eq_of_wrapper k vLS ms dm stLS hjson hdata,
      LocalStorageCacheStore.get_after_write k k vLS ms dm hnodupMs hnodupDm hrt,
      getMem_assignMem_self, canonRead_getD_of_storable vLS hstor]

theorem set_then_get_roundtrip_witness :
    LocalStorageCacheStore.getJSON none
      = .ok (.jobj (.mcons "data" (.jobj .mnil) .mnil))
    ∧ storable (.jstr "hello") = true
    ∧ IndexedCacheStore.get "a"
        (IndexedCacheStore.set "a" (5 : Int) []) = some 5
    ∧ LocalStorageCacheStore.get "a"
        (LocalStorageCacheStore.set "a" (.jstr "hello") none).2
        = .ok (.jstr "hello") := by
  have h := set_then_get_roundtrip Int "a" 5 [] (.jstr "hello")
    (.mcons "data" (.jobj .mnil) .mnil) .mnil none rfl rfl rfl rfl rfl rfl
  exact ⟨rfl, rfl, h.1, h.2.2⟩

/-- C7.  On both backends, `remove(k)` succeeds whether or not the key is
present (the hypotheses here do not constrain whether `k` occurs in the
table or wrapper) and a subsequent `get(k)` yields the explicit absent
result: `none` (the IndexedDB request result `undefined`) and the value
`undefined` respectively. -/
theorem remove_then_get_absent (α : Type) (k : String)
    (st : IndexedCacheStore.Table α)
    (ms dm : JSMems) (stLS : LocalStorageCacheStore.Slot)
    (hjson : LocalStorageCacheStore.getJSON stLS = .ok (.jobj ms))
    (hdata : getMem ms "data" = some (.jobj dm))
    (hnodupMs : keysNodup ms = true) (hnodupDm : keysNodup dm = true)
    (hrt : parseJSON (stringifyVal (updWrapper ms dm k .jundefined))
      = some (canonVal (updWrapper ms dm k .jundefined))) :
    IndexedCacheStore.get k (IndexedCacheStore.remove k st) = none
    ∧ (LocalStorageCacheStore.remove k stLS).1 = .ok ()
    ∧ LocalStorageCacheStore.get k (LocalStorageCacheStore.remove k stLS).2
        = .ok .jundefined := by
  refine ⟨IndexedCacheStore.lookup_remove_self st k, ?_, ?_⟩
  · rw [LocalStorageCacheStore.remove,
      LocalStorageCacheStore.set_eq_of_wrapper k .jundefined ms dm stLS hjson hdata]
  · rw [LocalStorageCacheStore.remove,
      LocalStorageCacheStore.set_eq_of_wrapper k .jundefined ms dm stLS hjson hdata,
      LocalStorageCacheStore.get_after_write k k .jundefined ms dm
        hnodupMs hnodupDm hrt, getMem_assignMem_self]
    rfl

theorem remove_then_get_absent_witness :
    LocalStorageCacheStore.getJSON (some (stringifyVal (wrapNum "a" 1)))
      = .ok (.jobj (.mcons "data" (.jobj (.mcons "a" (.jnum 1) .mnil)) .mnil))
    ∧ IndexedCacheStore.get "b"
        (IndexedCacheStore.remove "b" ([] : IndexedCacheStore.Table Int)) = none
    ∧ IndexedCacheStore.get "a"
        (IndexedCacheStore.remove "a" [("a", (1 : Int))]) = none
    ∧ LocalStorageCacheStore.get "a"
        (LocalStorageCacheStore.remove "a"
          (some (stringifyVal (wrapNum "a" 1)))).2 = .ok .jundefined := by
  have h1 := remove_then_get_absent Int "a" [("a", (1 : Int))]
    (.mcons "data" (.jobj (.mcons "a" (.jnum 1) .mnil)) .mnil)
    (.mcons "a" (.jnum 1) .mnil)
    (some (stringifyVal (wrapNum "a" 1))) rfl rfl rfl rfl rfl
  have h2 := remove_then_get_absent Int "b" []
    (.mcons "data" (.jobj .mnil) .mnil) .mnil none rfl rfl rfl rfl rfl
  exact ⟨rfl, h2.1, h1.1, h1.2.2⟩

/-- C8.  On both backends, `clear()` empties the store: afterwards `get(k)`
yields the explicit absent result for every key (in particular every
previously set key), and the clear itself succeeds. -/
theorem clear_then_get_absent (α : Type) (k : String)
    (st : IndexedCacheStore.Table α) (stLS : LocalStorageCacheStore.Slot) :
    IndexedCacheStore.get k (IndexedCacheStore.clear st) = none
    ∧ (LocalStorageCacheStore.clear stLS).1 = .ok ()
    ∧ LocalStorageCacheStore.get k (LocalStorageCacheStore.clear stLS).2
        = .ok .jundefined :=
  ⟨rfl, rfl, rfl⟩

/-- C9.  For one `IndexedCacheStore` instance, the engine open request is
issued exactly once (in the constructor) no matter how many operations are
issued or when; the handle delivered by the one open-success event is memoized
into `this.db`; every operation issued before that event waits in the queue
chained on `this.dp` and runs right when the open succeeds, and every
operation issued after it runs immediately — all of them against that same
single handle, and none of them failing or reopening because the open was
still pending. -/
theorem single_open_memoized_handle (pre post : List IndexedCacheStore.OpenEvent)
    (h : Nat)
    (hpre : ∀ g : Nat, IndexedCacheStore.OpenEvent.openOk g ∉ pre) :
    (IndexedCacheStore.runConn (pre ++ .openOk h :: post)).opens = 1
    ∧ (IndexedCacheStore.runConn (pre ++ .openOk h :: post)).db = some h
    ∧ (IndexedCacheStore.runConn (pre ++ .openOk h :: post)).waiting = []
    ∧ (IndexedCacheStore.runConn (pre ++ .openOk h :: post)).executed
        = (IndexedCacheStore.issuedOps (pre ++ .openOk h :: post)).map
            (fun op => (op, h)) := by
  rw [IndexedCacheStore.runConn_single_open pre post h hpre]
  exact ⟨rfl, rfl, rfl, rfl⟩

theorem single_open_memoized_handle_witness :
    (∀ g : Nat, IndexedCacheStore.OpenEvent.openOk g
        ∉ [IndexedCacheStore.OpenEvent.issue 0, IndexedCacheStore.OpenEvent.issue 1])
    ∧ (IndexedCacheStore.runConn
        ([IndexedCacheStore.OpenEvent.issue 0, IndexedCacheStore.OpenEvent.issue 1]
          ++ .openOk 7 :: [IndexedCacheStore.OpenEvent.issue 2])).opens = 1
    ∧ (IndexedCacheStore.runConn
        ([IndexedCacheStore.OpenEvent.issue 0, IndexedCacheStore.OpenEvent.issue 1]
          ++ .openOk 7 :: [IndexedCacheStore.OpenEvent.issue 2])).executed
        = [(0, 7), (1, 7), (2, 7)] := by
  have hpre : ∀ g : Nat, IndexedCacheStore.OpenEvent.openOk g
      ∉ [IndexedCacheStore.OpenEvent.issue 0, IndexedCacheStore.OpenEvent.issue 1] := by
    intro g
    simp
  have h := single_open_memoized_handle
    [IndexedCacheStore.OpenEvent.issue 0, IndexedCacheStore.OpenEvent.issue 1]
    [IndexedCacheStore.OpenEvent.issue 2] 7 hpre
  refine ⟨hpre, h.1, ?_⟩
  rw [h.2.2.2]
  rfl

/-- C10.  On both backends, every successful single-key mutating operation
(`set(k, v)`, `put(k, fn)`, `remove(k)`) changes at most the entry for `k`:
for every other key `j`, `get(j)` after the operation returns exactly what it
returned before.  For the localStorage backend this holds on well-formed
wrapper states whose stored values read back as themselves (parsed data never
embeds `undefined`), under the round-trip hypotheses for the three rewritten
blobs. -/
theorem single_key_ops_frame (α : Type) (j k : String) (hjk : j ≠ k)
    (v : α) (upd : Option α → Except JSError α) (next : α)
    (st : IndexedCacheStore.Table α)
    (hupd : upd (IndexedCacheStore.lookup k st) = .ok next)
    (vLS nextLS : JSValue) (updLS : JSValue → Except JSError JSValue)
    (ms dm : JSMems) (stLS : LocalStorageCacheStore.Slot)
    (hjson : LocalStorageCacheStore.getJSON stLS = .ok (.jobj ms))
    (hdata : getMem ms "data" = some (.jobj dm))
    (hnodupMs : keysNodup ms = true) (hnodupDm : keysNodup dm = true)
    (hufDm : undefFreeMems dm = true)
    (hupdLS : updLS ((getMem dm k).getD .jundefined) = .ok nextLS)
    (hrtSet : parseJSON (stringifyVal (updWrapper ms dm k vLS))
      = some (canonVal (updWrapper ms dm k vLS)))
    (hrtPut : parseJSON (stringifyVal (updWrapper ms dm k nextLS))
      = some (canonVal (updWrapper ms dm k nextLS)))
    (hrtRem : parseJSON (stringifyVal (updWrapper ms dm k .jundefined))
      = some (canonVal (updWrapper ms dm k .jundefined))) :
    IndexedCacheStore.get j (IndexedCacheStore.set k v st)
        = IndexedCacheStore.get j st
    ∧ IndexedCacheStore.get j (IndexedCacheStore.put k upd st).2
        = IndexedCacheStore.get j st
    ∧ IndexedCacheStore.get j (IndexedCacheStore.remove k st)
        = IndexedCacheStore.get j st
    ∧ LocalStorageCacheStore.get j (LocalStorageCacheStore.set k vLS stLS).2
        = LocalStorageCacheStore.get j stLS
    ∧ LocalStorageCacheStore.get j (LocalStorageCacheStore.put k updLS stLS).2
        = LocalStorageCacheStore.get j stLS
    ∧ LocalStorageCacheStore.get j (LocalStorageCacheStore.remove k stLS).2
        = LocalStorageCacheStore.get j stLS := by
  have hkey : ∀ x : JSValue,
      parseJSON (stringifyVal (updWrapper ms dm k x))
        = some (canonVal (updWrapper ms dm k x)) →
      LocalStorageCacheStore.get j (some (stringifyVal (updWrapper ms dm k x)))
        = LocalStorageCacheStore.get j stLS := by
    intro x hrtx
    rw [LocalStorageCacheStore.get_after_write j k x ms dm hnodupMs hnodupDm hrtx,
      getMem_assignMem_ne dm k j x hjk,
      canonRead_getD_of_undefFreeMems dm j hufDm,
      LocalStorageCacheStore.get_eq_of_wrapper j ms dm stLS hjson hdata]
  refine ⟨?_, ?_, ?_, ?_, ?_, ?_⟩
  · exact IndexedCacheStore.lookup_assign_ne st k j v hjk
  · simp only [IndexedCacheStore.put, hupd]
    exact IndexedCacheStore.lookup_assign_ne st k j next hjk
  · exact IndexedCacheStore.lookup_remove_ne st k j hjk
  · rw [LocalStorageCacheStore.set_eq_of_wrapper k vLS ms dm stLS hjson hdata]
    exact hkey vLS hrtSet
  · rw [LocalStorageCacheStore.put_eq_of_wrapper k updLS nextLS ms dm stLS
      hjson hdata hupdLS]
    exact hkey nextLS hrtPut
  · rw [LocalStorageCacheStore.remove,
      LocalStorageCacheStore.set_eq_of_wrapper k .jundefined ms dm stLS hjson hdata]
    exact hkey .jundefined hrtRem

/-- A concrete two-key data object used to exercise the frame property. -/
def frameDm : JSMems := .mcons "a" (.jnum 1) (.mcons "b" (.jnum 2) .mnil)

/-- The wrapper around `frameDm`. -/
def frameMs : JSMems := .mcons "data" (.jobj frameDm) .mnil

/-- The blob slot holding the serialized two-key wrapper. -/
def frameSlot : LocalStorageCacheStore.Slot := some (stringifyVal (.jobj frameMs))

theorem single_key_ops_frame_witness :
    ("b" : String) ≠ "a"
    ∧ LocalStorageCacheStore.getJSON frameSlot = .ok (.jobj frameMs)
    ∧ undefFreeMems frameDm = true
    ∧ IndexedCacheStore.get "b"
        (IndexedCacheStore.set "a" (9 : Int) [("a", 1), ("b", 2)])
        = IndexedCacheStore.get "b" [("a", (1 : Int)), ("b", 2)]
    ∧ LocalStorageCacheStore.get "b"
        (LocalStorageCacheStore.set "a" (.jnum 9) frameSlot).2
        = LocalStorageCacheStore.get "b" frameSlot
    ∧ LocalStorageCacheStore.get "b"
        (LocalStorageCacheStore.put "a" (fun _ => .ok (.jnum 9)) frameSlot).2
        = LocalStorageCacheStore.get "b" frameSlot
    ∧ LocalStorageCacheStore.get "b"
        (LocalStorageCacheStore.remove "a" frameSlot).2
        = LocalStorageCacheStore.get "b" frameSlot := by
  have h := single_key_ops_frame Int "b" "a" (by decide) 9 (fun _ => .ok 9) 9
    [("a", 1), ("b", 2)] rfl (.jnum 9) (.jnum 9) (fun _ => .ok (.jnum 9))
    frameMs frameDm frameSlot rfl rfl rfl rfl rfl rfl rfl rfl rfl
  exact ⟨by decide, rfl, rfl, h.1, h.2.2.2.1, h.2.2.2.2.1, h.2.2.2.2.2⟩
